import Mathlib

/-!
Verification of the quantum-monte-carlo repository's statistical core.

The Python modules `src/analysis.py`, `src/quantum_galton_board.py` and
`src/quantum_simulation.py` are shallowly embedded below: dictionaries
become association lists, floats become real numbers, exceptions become
an explicit error type, and the only source of randomness (numpy's
multinomial sampler) becomes an oracle argument supplying each draw.
-/

/-- Python-level failure conditions raised by the embedded functions. -/
inductive PyErr where
  /-- `final_bins[num_ones]` with `num_ones` absent from the dict. -/
  | keyError (k : ℕ)
  /-- Division by an integer zero, as in `count / num_shots` with zero shots. -/
  | zeroDivision
  /-- `ValueError("Scale (...) is not valid for ... layers.")`. -/
  | invalidScale (scale : ℝ) (layers : ℕ)
  /-- `ValueError("Unknown distribution type: ...")`. -/
  | unknownDist (distType : String)
  /-- `ValueError("Length of thetas must match the number of layers.")`. -/
  | shapeMismatch
  /-- `np.percentile` applied to an empty sample list. -/
  | emptyPercentile

/-- A measured bitstring: `'1'` digits are `true`. -/
abbrev Bitstring := List Bool

/-- A Qiskit counts dictionary: bitstring to occurrence count. -/
abbrev Counts := List (Bitstring × ℕ)

/-- A probability dictionary: integer bin to probability. -/
abbrev ProbDict := List (ℕ × ℝ)

/-- `bitstring.count('1')` from `process_results`. -/
def hammingWeight (bs : Bitstring) : ℕ := bs.count true

/-- `d.get(k, 0)`: first value stored under key `k`, defaulting to `0`. -/
def dictGet (d : ProbDict) (k : ℕ) : ℝ := ((d.find? (fun kv => kv.1 == k)).map (·.2)).getD 0

/-- `sum(counts.values())`. -/
def totalShots (counts : Counts) : ℕ := (counts.map (·.2)).sum

/-- The loop of `process_results`: starting from the zero-initialised bins
`final_bins = {k: 0 for k in range(layers + 1)}`, add each observed count to
the bin given by its bitstring's number of `'1'` digits; a Hamming weight
above `layers` is a missing key and raises `KeyError`. -/
def accumBins (layers : ℕ) : Counts → (ℕ → ℕ) → Except PyErr (ℕ → ℕ)
  | [], f => .ok f
  | (bs, c) :: rest, f =>
    let w := hammingWeight bs
    if w ≤ layers then
      accumBins layers rest (fun k => if k = w then f k + c else f k)
    else
      .error (.keyError w)

/-- `process_results(counts, layers)` from `src/analysis.py`: bin raw counts
by Hamming weight over the keys `0..layers` and normalise by the total shot
count, returning all-zero bins when the total is zero. -/
noncomputable def process_results (counts : Counts) (layers : ℕ) : Except PyErr ProbDict :=
  let num_shots := totalShots counts
  if num_shots = 0 then
    .ok ((List.range (layers + 1)).map (fun k => (k, (0 : ℝ))))
  else
    (accumBins layers counts (fun _ => 0)).map
      (fun f => (List.range (layers + 1)).map (fun k => (k, (f k : ℝ) / (num_shots : ℝ))))

/-- Sum of a function mapped over `List.range` as a `Finset` sum. -/
lemma list_range_map_sum {M : Type} [AddCommMonoid M] (n : ℕ) (f : ℕ → M) :
    ((List.range n).map f).sum = ∑ k ∈ Finset.range n, f k := by
  induction n with
  | zero => simp
  | succ n ih => simp [List.range_succ, Finset.sum_range_succ, ih]

/-- Adding `c` at one bin `w < n` raises the total over bins `0..n-1` by `c`. -/
lemma sum_update_bin (n w c : ℕ) (f : ℕ → ℕ) (hw : w < n) :
    ∑ k ∈ Finset.range n, (if k = w then f k + c else f k) =
      (∑ k ∈ Finset.range n, f k) + c := by
  have h : ∀ k, (if k = w then f k + c else f k) = f k + (if k = w then c else 0) := by
    intro k; by_cases hk : k = w <;> simp [hk]
  simp only [h, Finset.sum_add_distrib]
  rw [Finset.sum_ite_eq' (Finset.range n) w (fun _ => c)]
  simp [Finset.mem_range.mpr hw]

/-- When every bitstring has Hamming weight at most `layers`, the binning
loop succeeds and the final bins hold the initial bin total plus every
observed count. -/
lemma accumBins_ok (layers : ℕ) :
    ∀ (counts : Counts) (f : ℕ → ℕ),
      (∀ p ∈ counts, hammingWeight p.1 ≤ layers) →
      ∃ g, accumBins layers counts f = .ok g ∧
        ∑ k ∈ Finset.range (layers + 1), g k =
          (∑ k ∈ Finset.range (layers + 1), f k) + totalShots counts := by
  intro counts
  induction counts with
  | nil => intro f _; exact ⟨f, rfl, by simp [totalShots]⟩
  | cons p rest ih =>
    intro f hall
    obtain ⟨bs, c⟩ := p
    have hw : hammingWeight bs ≤ layers := hall (bs, c) (List.mem_cons_self _ _)
    have hrest : ∀ q ∈ rest, hammingWeight q.1 ≤ layers :=
      fun q hq => hall q (List.mem_cons_of_mem _ hq)
    obtain ⟨g, hg, hsum⟩ :=
      ih (fun k => if k = hammingWeight bs then f k + c else f k) hrest
    refine ⟨g, ?_, ?_⟩
    · simpa [accumBins, hw] using hg
    · rw [hsum, sum_update_bin _ _ _ _ (Nat.lt_succ_of_le hw)]
      simp [totalShots]
      ring

/-- C1: on a zero-total counts dictionary `process_results` returns the
all-zero bins `0..L` without dividing; on a positive-total dictionary whose
bitstrings all have at most `L` ones it returns a distribution with exactly
the keys `0..L` whose values sum to `1`. -/
theorem process_results_dist (counts : Counts) (layers : ℕ) :
    (totalShots counts = 0 →
      process_results counts layers =
        .ok ((List.range (layers + 1)).map (fun k => (k, (0 : ℝ))))) ∧
    (0 < totalShots counts →
      (∀ p ∈ counts, hammingWeight p.1 ≤ layers) →
      ∃ d, process_results counts layers = .ok d ∧
        d.map (·.1) = List.range (layers + 1) ∧
        (d.map (·.2)).sum = 1) := by
  constructor
  · intro h0
    simp [process_results, h0]
  · intro hpos hall
    obtain ⟨g, hg, hsum⟩ := accumBins_ok layers counts (fun _ => 0) hall
    have hne : totalShots counts ≠ 0 := Nat.pos_iff_ne_zero.mp hpos
    refine ⟨(List.range (layers + 1)).map
      (fun k => (k, (g k : ℝ) / (totalShots counts : ℝ))), ?_, ?_, ?_⟩
    · simp [process_results, hne, hg]
      rfl
    · simp [List.map_map, Function.comp_def]
    · have hN : (totalShots counts : ℝ) ≠ 0 := Nat.cast_ne_zero.mpr hne
      simp only [List.map_map, Function.comp_def]
      rw [list_range_map_sum]
      simp only [← Finset.sum_div]
      rw [show ∑ k ∈ Finset.range (layers + 1), (g k : ℝ) =
            ((∑ k ∈ Finset.range (layers + 1), g k : ℕ) : ℝ) by push_cast; rfl]
      rw [hsum]
      simp [div_self hN]

/-- Closed instance of the two `process_results_dist` hypotheses. -/
theorem process_results_dist_witness :
    (totalShots [] = 0 ∧
      process_results [] 2 = .ok ((List.range 3).map (fun k => (k, (0 : ℝ))))) ∧
    (0 < totalShots [([true], 1)] ∧
      ∃ d, process_results [([true], 1)] 1 = .ok d ∧
        d.map (·.1) = List.range 2 ∧ (d.map (·.2)).sum = 1) :=
  ⟨⟨rfl, (process_results_dist [] 2).1 rfl⟩,
   ⟨by decide, (process_results_dist [([true], 1)] 1).2 (by decide)
      (by intro p hp; simp at hp; simp [hp, hammingWeight])⟩⟩

/-- C10: `process_results` is total exactly on inputs whose bitstrings have
at most `layers` ones; a bitstring with more ones hits a missing bin key,
witnessed by the two-ones bitstring `"11"` at `layers = 1`. -/
theorem process_results_partiality :
    (∀ (counts : Counts) (layers : ℕ),
      (∀ p ∈ counts, hammingWeight p.1 ≤ layers) →
      ∃ d, process_results counts layers = .ok d) ∧
    process_results [([true, true], 1)] 1 = .error (.keyError 2) := by
  constructor
  · intro counts layers hall
    by_cases h0 : totalShots counts = 0
    · refine ⟨(List.range (layers + 1)).map (fun k => (k, (0 : ℝ))), ?_⟩
      simp [process_results, h0]
    · obtain ⟨g, hg, _⟩ := accumBins_ok layers counts (fun _ => 0) hall
      refine ⟨(List.range (layers + 1)).map
        (fun k => (k, (g k : ℝ) / (totalShots counts : ℝ))), ?_⟩
      simp [process_results, h0, hg]
      rfl
  · rfl

/-- Closed instance of the `process_results_partiality` hypothesis. -/
theorem process_results_partiality_witness :
    ∃ d, process_results [([false, true], 1)] 2 = .ok d :=
  process_results_partiality.1 [([false, true], 1)] 2
    (by intro p hp; simp at hp; simp [hp, hammingWeight])

/-- `get_thetas_for_exponential(layers, scale)` from
`src/quantum_galton_board.py`: validate `p = scale / layers`, then replicate
`theta = 2 * arcsin(sqrt(p))` across all layers. Integer `layers = 0` makes
the Python division raise before the validity check. -/
noncomputable def get_thetas_for_exponential (layers : ℕ) (scale : ℝ) :
    Except PyErr (List ℝ) :=
  if layers = 0 then .error .zeroDivision
  else
    let prob_one := scale / (layers : ℝ)
    if ¬(0 ≤ prob_one ∧ prob_one ≤ 1) then .error (.invalidScale scale layers)
    else .ok (List.replicate layers (2 * Real.arcsin (Real.sqrt prob_one)))

/-- `scipy.stats.binom.pmf(k, n, p)`. -/
noncomputable def binom_pmf (k n : ℕ) (p : ℝ) : ℝ :=
  (n.choose k : ℝ) * p ^ k * (1 - p) ^ (n - k)

/-- `get_target_distribution(dist_type, layers, scale)` from
`src/analysis.py`: binomial pmf over bins `0..layers` with `p = 0.5` for
`'normal'` and `p = scale / layers` (validated) for `'exponential'`; any
other label raises `ValueError`. -/
noncomputable def get_target_distribution (dist_type : String) (layers : ℕ)
    (scale : ℝ := 3.0) : Except PyErr ProbDict :=
  if dist_type = "normal" then
    .ok ((List.range (layers + 1)).map (fun k => (k, binom_pmf k layers (1 / 2))))
  else if dist_type = "exponential" then
    if layers = 0 then .error .zeroDivision
    else
      let prob_one := scale / (layers : ℝ)
      if ¬(0 ≤ prob_one ∧ prob_one ≤ 1) then .error (.invalidScale scale layers)
      else .ok ((List.range (layers + 1)).map (fun k => (k, binom_pmf k layers prob_one)))
  else .error (.unknownDist dist_type)

/-- C2: for `layers ≥ 1` and `0 ≤ scale/layers ≤ 1` the returned theta list
has length `layers`, every entry is the same
`theta = 2 * arcsin(sqrt(scale/layers))`, and `sin²(theta/2)` recovers
`scale/layers` exactly. -/
theorem get_thetas_for_exponential_spec (layers : ℕ) (scale : ℝ)
    (hL : 1 ≤ layers) (h0 : 0 ≤ scale / (layers : ℝ)) (h1 : scale / (layers : ℝ) ≤ 1) :
    ∃ ts, get_thetas_for_exponential layers scale = .ok ts ∧
      ts.length = layers ∧
      (∀ θ ∈ ts, θ = 2 * Real.arcsin (Real.sqrt (scale / (layers : ℝ)))) ∧
      Real.sin (2 * Real.arcsin (Real.sqrt (scale / (layers : ℝ))) / 2) ^ 2 =
        scale / (layers : ℝ) := by
  have hLne : layers ≠ 0 := Nat.one_le_iff_ne_zero.mp hL
  refine ⟨List.replicate layers (2 * Real.arcsin (Real.sqrt (scale / (layers : ℝ)))),
    ?_, by simp, ?_, ?_⟩
  · simp [get_thetas_for_exponential, hLne, h0, h1]
  · intro θ hθ
    exact List.eq_of_mem_replicate hθ
  · have harg : 2 * Real.arcsin (Real.sqrt (scale / (layers : ℝ))) / 2 =
        Real.arcsin (Real.sqrt (scale / (layers : ℝ))) := by ring
    rw [harg, Real.sin_arcsin (le_trans (by norm_num) (Real.sqrt_nonneg _))
      (Real.sqrt_le_one.mpr h1), Real.sq_sqrt h0]

/-- Closed instance of the `get_thetas_for_exponential_spec` hypotheses. -/
theorem get_thetas_for_exponential_spec_witness :
    1 ≤ 2 ∧ 0 ≤ (1 : ℝ) / ((2 : ℕ) : ℝ) ∧ (1 : ℝ) / ((2 : ℕ) : ℝ) ≤ 1 ∧
    ∃ ts, get_thetas_for_exponential 2 1 = .ok ts ∧
      ts.length = 2 ∧
      (∀ θ ∈ ts, θ = 2 * Real.arcsin (Real.sqrt ((1 : ℝ) / ((2 : ℕ) : ℝ)))) ∧
      Real.sin (2 * Real.arcsin (Real.sqrt ((1 : ℝ) / ((2 : ℕ) : ℝ))) / 2) ^ 2 =
        (1 : ℝ) / ((2 : ℕ) : ℝ) :=
  ⟨by norm_num, by norm_num, by norm_num,
    get_thetas_for_exponential_spec 2 1 (by norm_num) (by norm_num) (by norm_num)⟩

/-- C7: a scale with `scale/layers` outside `[0,1]` makes both
`get_thetas_for_exponential` and `get_target_distribution('exponential', ...)`
raise the `ValueError` naming that scale and layer count, before producing
any angles or probabilities; any distribution label other than `'normal'`
and `'exponential'` makes `get_target_distribution` raise. -/
theorem invalid_parameters_raise :
    (∀ (layers : ℕ) (scale : ℝ),
      (scale / (layers : ℝ) < 0 ∨ 1 < scale / (layers : ℝ)) →
      get_thetas_for_exponential layers scale = .error (.invalidScale scale layers) ∧
      get_target_distribution "exponential" layers scale =
        .error (.invalidScale scale layers)) ∧
    (∀ (d : String) (layers : ℕ) (scale : ℝ), d ≠ "normal" → d ≠ "exponential" →
      get_target_distribution d layers scale = .error (.unknownDist d)) := by
  constructor
  · intro layers scale hbad
    have hLne : layers ≠ 0 := by
      intro h
      rw [h] at hbad
      norm_num at hbad
    have hguard : ¬(0 ≤ scale / (layers : ℝ) ∧ scale / (layers : ℝ) ≤ 1) := by
      rcases hbad with h | h
      · exact fun hc => absurd hc.1 (not_le.mpr h)
      · exact fun hc => absurd hc.2 (not_le.mpr h)
    constructor
    · simp [get_thetas_for_exponential, hLne, hguard]
    · simp [get_target_distribution, hLne, hguard]
  · intro d layers scale hn he
    simp [get_target_distribution, hn, he]

/-- Closed instance of the `invalid_parameters_raise` hypotheses. -/
theorem invalid_parameters_raise_witness :
    ((2 : ℝ) / ((1 : ℕ) : ℝ) < 0 ∨ 1 < (2 : ℝ) / ((1 : ℕ) : ℝ)) ∧
    get_thetas_for_exponential 1 2 = .error (.invalidScale 2 1) ∧
    get_target_distribution "exponential" 1 2 = .error (.invalidScale 2 1) ∧
    get_target_distribution "gamma" 3 1 = .error (.unknownDist "gamma") := by
  have hbad : (2 : ℝ) / ((1 : ℕ) : ℝ) < 0 ∨ 1 < (2 : ℝ) / ((1 : ℕ) : ℝ) := by
    right; norm_num
  obtain ⟨h1, h2⟩ := invalid_parameters_raise.1 1 2 hbad
  exact ⟨hbad, h1, h2,
    invalid_parameters_raise.2 "gamma" 3 1 (by decide) (by decide)⟩

/-- A gate of the embedded Galton-board circuit. -/
inductive Gate where
  /-- `qc.h(q)`. -/
  | h (q : ℕ)
  /-- `qc.ry(theta, q)`. -/
  | ry (theta : ℝ) (q : ℕ)
  /-- `qc.measure(q, c)`. -/
  | measure (q c : ℕ)

/-- The observable content of the Qiskit circuit object built by
`create_qgb_circuit`. -/
structure QuantumCircuit where
  num_qubits : ℕ
  num_clbits : ℕ
  name : String
  gates : List Gate

/-- `create_qgb_circuit(layers, thetas)` from `src/quantum_galton_board.py`:
`thetas = None` gives one Hadamard per qubit, otherwise one `Ry(thetas[i])`
per qubit after a length check; each qubit is then measured. -/
def create_qgb_circuit (layers : ℕ) (thetas : Option (List ℝ) := none) :
    Except PyErr QuantumCircuit :=
  match thetas with
  | none =>
    .ok ⟨layers, layers, "QGB_" ++ toString layers ++ "L",
      ((List.range layers).map Gate.h) ++
        ((List.range layers).map (fun i => Gate.measure i i))⟩
  | some ts =>
    if ts.length ≠ layers then .error .shapeMismatch
    else
      .ok ⟨layers, layers, "QGB_" ++ toString layers ++ "L",
        ((List.range layers).map (fun i => Gate.ry (ts.getD i 0) i)) ++
          ((List.range layers).map (fun i => Gate.measure i i))⟩

/-- C8: a theta list whose length differs from the layer count makes
`create_qgb_circuit` raise at construction time, while `thetas = None`
builds a circuit with a Hadamard on every one of the `layers` qubits. -/
theorem create_qgb_circuit_spec (layers : ℕ) :
    (∀ ts : List ℝ, ts.length ≠ layers →
      create_qgb_circuit layers (some ts) = .error .shapeMismatch) ∧
    (∃ qc, create_qgb_circuit layers none = .ok qc ∧
      ∀ i < layers, Gate.h i ∈ qc.gates) := by
  constructor
  · intro ts hlen
    simp [create_qgb_circuit, hlen]
  · refine ⟨_, rfl, ?_⟩
    intro i hi
    exact List.mem_append_left _ (List.mem_map_of_mem _ (List.mem_range.mpr hi))

/-- Closed instance of the `create_qgb_circuit_spec` hypotheses. -/
theorem create_qgb_circuit_spec_witness :
    create_qgb_circuit 1 (some []) = .error .shapeMismatch ∧
    ∃ qc, create_qgb_circuit 1 none = .ok qc ∧ ∀ i < 1, Gate.h i ∈ qc.gates :=
  ⟨(create_qgb_circuit_spec 1).1 [] (by decide), (create_qgb_circuit_spec 1).2⟩

/-- The unified key set of `kl_divergence`:
`sorted(list(set(p.keys()) | set(q.keys())))`. -/
def allKeys (p q : ProbDict) : List ℕ :=
  ((p.map (·.1) ++ q.map (·.1)).dedup).mergeSort (fun a b => decide (a ≤ b))

/-- The fixed `epsilon = 1e-12` added to every entry of both vectors. -/
noncomputable def klEpsilon : ℝ := 1e-12

/-- `kl_divergence(p, q)` from `src/analysis.py`: over the unified key set,
fill missing entries with `0`, shift both entries by `epsilon`, and sum
`p · log(p / q)`. -/
noncomputable def kl_divergence (p q : ProbDict) : ℝ :=
  ((allKeys p q).map (fun k =>
    (dictGet p k + klEpsilon) *
      Real.log ((dictGet p k + klEpsilon) / (dictGet q k + klEpsilon)))).sum

lemma klEpsilon_pos : 0 < klEpsilon := by norm_num [klEpsilon]

/-- Gibbs-style bound: for positive `a`, `b`, `a - b ≤ a · log(a / b)`. -/
lemma sub_le_mul_log_div {a b : ℝ} (ha : 0 < a) (hb : 0 < b) :
    a - b ≤ a * Real.log (a / b) := by
  have h1 : Real.log (b / a) ≤ b / a - 1 := Real.log_le_sub_one_of_pos (div_pos hb ha)
  have h2 : Real.log (a / b) = -Real.log (b / a) := by
    rw [← Real.log_inv, inv_div]
  have h3 : 1 - b / a ≤ Real.log (a / b) := by rw [h2]; linarith
  have h4 : a * (1 - b / a) ≤ a * Real.log (a / b) :=
    mul_le_mul_of_nonneg_left h3 (le_of_lt ha)
  have h5 : a * (1 - b / a) = a - b := by field_simp
  linarith

lemma sum_map_sub (l : List ℕ) (f g : ℕ → ℝ) :
    (l.map (fun k => f k - g k)).sum = (l.map f).sum - (l.map g).sum := by
  induction l with
  | nil => simp
  | cons a t ih => simp [ih]; ring

/-- C3: with non-negative inputs each summing to `1` over the unified key
set, the epsilon-shifted KL divergence is non-negative; on two identical
dictionaries it is exactly `0`. -/
theorem kl_divergence_nonneg_and_zero :
    (∀ p q : ProbDict,
      (∀ k ∈ allKeys p q, 0 ≤ dictGet p k) →
      (∀ k ∈ allKeys p q, 0 ≤ dictGet q k) →
      ((allKeys p q).map (fun k => dictGet p k)).sum = 1 →
      ((allKeys p q).map (fun k => dictGet q k)).sum = 1 →
      0 ≤ kl_divergence p q) ∧
    (∀ p : ProbDict, kl_divergence p p = 0) := by
  constructor
  · intro p q hp0 hq0 hp1 hq1
    have hstep : ∀ k ∈ allKeys p q,
        (fun k => dictGet p k - dictGet q k) k ≤
        (fun k => (dictGet p k + klEpsilon) *
          Real.log ((dictGet p k + klEpsilon) / (dictGet q k + klEpsilon))) k := by
      intro k hk
      have hpk : 0 < dictGet p k + klEpsilon :=
        add_pos_of_nonneg_of_pos (hp0 k hk) klEpsilon_pos
      have hqk : 0 < dictGet q k + klEpsilon :=
        add_pos_of_nonneg_of_pos (hq0 k hk) klEpsilon_pos
      have := sub_le_mul_log_div hpk hqk
      simpa using this
    have hle := List.sum_le_sum hstep
    have hzero : ((allKeys p q).map (fun k => dictGet p k - dictGet q k)).sum = 0 := by
      rw [sum_map_sub, hp1, hq1]; ring
    calc (0 : ℝ) = ((allKeys p q).map (fun k => dictGet p k - dictGet q k)).sum :=
          hzero.symm
      _ ≤ _ := hle
  · intro p
    apply List.sum_eq_zero
    intro x hx
    simp only [List.mem_map] at hx
    obtain ⟨k, _, rfl⟩ := hx
    by_cases h : dictGet p k + klEpsilon = 0
    · simp [h]
    · simp [div_self h]

/-- Closed instance of the `kl_divergence_nonneg_and_zero` hypotheses. -/
theorem kl_divergence_nonneg_and_zero_witness :
    (∀ k ∈ allKeys [(0, (1 : ℝ))] [(0, (1 : ℝ))], 0 ≤ dictGet [(0, (1 : ℝ))] k) ∧
    ((allKeys [(0, (1 : ℝ))] [(0, (1 : ℝ))]).map
      (fun k => dictGet [(0, (1 : ℝ))] k)).sum = 1 ∧
    0 ≤ kl_divergence [(0, (1 : ℝ))] [(0, (1 : ℝ))] := by
  have hAK : allKeys [(0, (1 : ℝ))] [(0, (1 : ℝ))] = [0] := by
    simp [allKeys, List.dedup_cons_of_mem]
  have hget : dictGet [(0, (1 : ℝ))] 0 = 1 := by norm_num [dictGet]
  have h0 : ∀ k ∈ allKeys [(0, (1 : ℝ))] [(0, (1 : ℝ))], 0 ≤ dictGet [(0, (1 : ℝ))] k := by
    rw [hAK]; intro k hk; simp at hk; rw [hk, hget]; norm_num
  have h1 : ((allKeys [(0, (1 : ℝ))] [(0, (1 : ℝ))]).map
      (fun k => dictGet [(0, (1 : ℝ))] k)).sum = 1 := by
    rw [hAK]; simp [hget]
  exact ⟨h0, h1, kl_divergence_nonneg_and_zero.1 _ _ h0 h0 h1 h1⟩

/-- `weighted_estimator_from_probs(probs, m)` from
`src/quantum_simulation.py`: accumulate `p_j · sin²(π · j / 2^m)` over the
entries of `probs`. -/
noncomputable def weighted_estimator_from_probs (probs : ProbDict) (m : ℕ) : ℝ :=
  (probs.map (fun jp =>
    jp.2 * Real.sin (Real.pi * ((jp.1 : ℝ) / (2 ^ m : ℝ))) ^ 2)).sum

/-- C4: the estimator is exactly `Σ_j p_j · sin²(π · j / 2^m)` over the
`2^m` phase bins, and for `m = 3` with all probability at bin `j = 2` it
equals `sin²(π/4) = 1/2`. -/
theorem weighted_estimator_spec :
    (∀ (m : ℕ) (f : ℕ → ℝ),
      weighted_estimator_from_probs ((List.range (2 ^ m)).map (fun j => (j, f j))) m =
        ∑ j ∈ Finset.range (2 ^ m),
          f j * Real.sin (Real.pi * ((j : ℝ) / (2 ^ m : ℝ))) ^ 2) ∧
    weighted_estimator_from_probs
      ((List.range (2 ^ 3)).map (fun j => (j, if j = 2 then (1 : ℝ) else 0))) 3 =
      1 / 2 := by
  have hgen : ∀ (m : ℕ) (f : ℕ → ℝ),
      weighted_estimator_from_probs ((List.range (2 ^ m)).map (fun j => (j, f j))) m =
        ∑ j ∈ Finset.range (2 ^ m),
          f j * Real.sin (Real.pi * ((j : ℝ) / (2 ^ m : ℝ))) ^ 2 := by
    intro m f
    unfold weighted_estimator_from_probs
    rw [List.map_map]
    simp only [Function.comp_def]
    exact list_range_map_sum _ _
  refine ⟨hgen, ?_⟩
  rw [hgen]
  rw [Finset.sum_eq_single_of_mem 2 (by norm_num)]
  · have harg : Real.pi * (((2 : ℕ) : ℝ) / (2 ^ 3 : ℝ)) = Real.pi / 4 := by
      push_cast; ring
    rw [if_pos rfl, harg, Real.sin_pi_div_four, one_mul, div_pow,
      Real.sq_sqrt (by norm_num : (0 : ℝ) ≤ 2)]
    norm_num
  · intro b _ hb
    simp [hb]

/-- `np.mean(l)`. -/
noncomputable def npMean (l : List ℝ) : ℝ := l.sum / l.length

/-- Ascending sort of a real sample list, as `np.percentile` performs. -/
noncomputable def sortSamples (l : List ℝ) : List ℝ := l.mergeSort

/-- Index into the sorted samples, clamped to the last entry. -/
noncomputable def sortedAt (l : List ℝ) (i : ℕ) : ℝ :=
  (sortSamples l).getD (min i (l.length - 1)) 0

/-- `np.percentile(l, q)` with the default linear interpolation: the value
at fractional position `h = q/100 · (n-1)` of the sorted samples is
`s[⌊h⌋] + (h - ⌊h⌋) · (s[⌊h⌋+1] - s[⌊h⌋])`. -/
noncomputable def npPercentile (l : List ℝ) (q : ℝ) : ℝ :=
  let h : ℝ := q / 100 * ((l.length : ℝ) - 1)
  sortedAt l ⌊h⌋₊ + (h - (⌊h⌋₊ : ℝ)) * (sortedAt l (⌊h⌋₊ + 1) - sortedAt l ⌊h⌋₊)

lemma sortSamples_sorted (l : List ℝ) : (sortSamples l).Sorted (· ≤ ·) :=
  List.sorted_mergeSort' l

lemma sortedAt_mono (l : List ℝ) (hne : l ≠ []) {i j : ℕ} (hij : i ≤ j) :
    sortedAt l i ≤ sortedAt l j := by
  have hpos : 0 < l.length := List.length_pos.mpr hne
  have hlen : (sortSamples l).length = l.length := by simp [sortSamples]
  have hlt : ∀ k : ℕ, min k (l.length - 1) < (sortSamples l).length := by
    intro k
    rw [hlen]
    exact lt_of_le_of_lt (min_le_right _ _) (Nat.sub_lt hpos one_pos)
  unfold sortedAt
  rw [List.getD_eq_getElem _ _ (hlt i), List.getD_eq_getElem _ _ (hlt j)]
  exact List.Sorted.rel_get_of_le (sortSamples_sorted l)
    (a := ⟨min i (l.length - 1), hlt i⟩) (b := ⟨min j (l.length - 1), hlt j⟩)
    (Fin.mk_le_mk.mpr (min_le_min hij le_rfl))

/-- Linear interpolation between consecutive entries of the sorted samples
is monotone in the fractional position. -/
lemma interp_mono (l : List ℝ) (hne : l ≠ []) {h₁ h₂ : ℝ}
    (h0 : 0 ≤ h₁) (h12 : h₁ ≤ h₂) :
    sortedAt l ⌊h₁⌋₊ + (h₁ - (⌊h₁⌋₊ : ℝ)) * (sortedAt l (⌊h₁⌋₊ + 1) - sortedAt l ⌊h₁⌋₊) ≤
      sortedAt l ⌊h₂⌋₊ + (h₂ - (⌊h₂⌋₊ : ℝ)) * (sortedAt l (⌊h₂⌋₊ + 1) - sortedAt l ⌊h₂⌋₊) := by
  have h02 : 0 ≤ h₂ := le_trans h0 h12
  have hf₁0 : 0 ≤ h₁ - (⌊h₁⌋₊ : ℝ) := sub_nonneg.mpr (Nat.floor_le h0)
  have hf₁1 : h₁ - (⌊h₁⌋₊ : ℝ) ≤ 1 := by
    have := Nat.lt_floor_add_one h₁
    linarith
  have hf₂0 : 0 ≤ h₂ - (⌊h₂⌋₊ : ℝ) := sub_nonneg.mpr (Nat.floor_le h02)
  have hd₁ : sortedAt l ⌊h₁⌋₊ ≤ sortedAt l (⌊h₁⌋₊ + 1) :=
    sortedAt_mono l hne (Nat.le_succ _)
  have hd₂ : sortedAt l ⌊h₂⌋₊ ≤ sortedAt l (⌊h₂⌋₊ + 1) :=
    sortedAt_mono l hne (Nat.le_succ _)
  rcases eq_or_lt_of_le (Nat.floor_le_floor h12) with heq | hlt
  · rw [← heq]
    have hexp : (h₂ - (⌊h₁⌋₊ : ℝ)) * (sortedAt l (⌊h₁⌋₊ + 1) - sortedAt l ⌊h₁⌋₊) -
        (h₁ - (⌊h₁⌋₊ : ℝ)) * (sortedAt l (⌊h₁⌋₊ + 1) - sortedAt l ⌊h₁⌋₊) =
        (h₂ - h₁) * (sortedAt l (⌊h₁⌋₊ + 1) - sortedAt l ⌊h₁⌋₊) := by ring
    have hpos2 : 0 ≤ (h₂ - h₁) * (sortedAt l (⌊h₁⌋₊ + 1) - sortedAt l ⌊h₁⌋₊) :=
      mul_nonneg (by linarith) (by linarith)
    linarith
  · have hup : sortedAt l ⌊h₁⌋₊ +
        (h₁ - (⌊h₁⌋₊ : ℝ)) * (sortedAt l (⌊h₁⌋₊ + 1) - sortedAt l ⌊h₁⌋₊) ≤
        sortedAt l (⌊h₁⌋₊ + 1) := by
      have hx : 0 ≤ (1 - (h₁ - (⌊h₁⌋₊ : ℝ))) * (sortedAt l (⌊h₁⌋₊ + 1) - sortedAt l ⌊h₁⌋₊) :=
        mul_nonneg (by linarith) (by linarith)
      have hexp : (1 - (h₁ - (⌊h₁⌋₊ : ℝ))) * (sortedAt l (⌊h₁⌋₊ + 1) - sortedAt l ⌊h₁⌋₊) =
          (sortedAt l (⌊h₁⌋₊ + 1) - sortedAt l ⌊h₁⌋₊) -
            (h₁ - (⌊h₁⌋₊ : ℝ)) * (sortedAt l (⌊h₁⌋₊ + 1) - sortedAt l ⌊h₁⌋₊) := by ring
      linarith
    have hmid : sortedAt l (⌊h₁⌋₊ + 1) ≤ sortedAt l ⌊h₂⌋₊ :=
      sortedAt_mono l hne (Nat.succ_le_of_lt hlt)
    have hlow : sortedAt l ⌊h₂⌋₊ ≤ sortedAt l ⌊h₂⌋₊ +
        (h₂ - (⌊h₂⌋₊ : ℝ)) * (sortedAt l (⌊h₂⌋₊ + 1) - sortedAt l ⌊h₂⌋₊) := by
      have hx : 0 ≤ (h₂ - (⌊h₂⌋₊ : ℝ)) * (sortedAt l (⌊h₂⌋₊ + 1) - sortedAt l ⌊h₂⌋₊) :=
        mul_nonneg hf₂0 (by linarith)
      linarith
    linarith

/-- On a nonempty sample list `np.percentile` is monotone in the
percentile rank. -/
lemma npPercentile_mono (l : List ℝ) (hne : l ≠ []) {q₁ q₂ : ℝ}
    (hq0 : 0 ≤ q₁) (hq : q₁ ≤ q₂) : npPercentile l q₁ ≤ npPercentile l q₂ := by
  have hn1 : (0 : ℝ) ≤ (l.length : ℝ) - 1 := by
    have h1 : 1 ≤ l.length := List.length_pos.mpr hne
    have : (1 : ℝ) ≤ (l.length : ℝ) := by exact_mod_cast h1
    linarith
  have hpos1 : 0 ≤ q₁ / 100 * ((l.length : ℝ) - 1) :=
    mul_nonneg (div_nonneg hq0 (by norm_num)) hn1
  have hle : q₁ / 100 * ((l.length : ℝ) - 1) ≤ q₂ / 100 * ((l.length : ℝ) - 1) :=
    mul_le_mul_of_nonneg_right ((div_le_div_iff_of_pos_right (by norm_num)).mpr hq) hn1
  exact interp_mono l hne hpos1 hle

/-- `int(bitstr, 2)`. -/
def bitsToNat (bs : Bitstring) : ℕ :=
  bs.foldl (fun n b => 2 * n + (if b then 1 else 0)) 0

/-- `format(i, f'0{L}b')` for `i < 2^L`: the `L`-digit binary string of
`i`, most significant digit first. -/
def natToBits (L i : ℕ) : Bitstring :=
  (List.range L).map (fun b => i.testBit (L - 1 - b))

/-- `counts.get(bitstring, 0)`. -/
def countsGet (counts : Counts) (bs : Bitstring) : ℕ :=
  ((counts.find? (fun p => p.1 == bs)).map (·.2)).getD 0

/-- `probs[j] = v`: overwrite the entry under key `j`, inserting it when
absent, as Python dict assignment does. -/
def dictSet : ProbDict → ℕ → ℝ → ProbDict
  | [], k, v => [(k, v)]
  | (k', v') :: rest, k, v =>
    if k' = k then (k, v) :: rest else (k', v') :: dictSet rest k v

/-- `full_counts_probs(counts, num_bits)` from `src/quantum_simulation.py`:
a zero-filled vector over the `2^num_bits` phase bins, overwritten with
`count / shots_total` for each observed bitstring; an all-zero counts
dictionary short-circuits to the zero vector. -/
noncomputable def full_counts_probs (counts : Counts) (num_bits : ℕ) : ProbDict :=
  let shots_total := totalShots counts
  if shots_total = 0 then (List.range (2 ^ num_bits)).map (fun j => (j, (0 : ℝ)))
  else
    counts.foldl
      (fun d p => dictSet d (bitsToNat p.1) ((p.2 : ℝ) / (shots_total : ℝ)))
      ((List.range (2 ^ num_bits)).map (fun j => (j, (0 : ℝ))))

/-- The sequential bootstrap loop: run the per-iteration statistic in
order, propagating the first raised error, and collect the samples. -/
noncomputable def bootstrapSamples (f : ℕ → Except PyErr ℝ) : List ℕ → Except PyErr (List ℝ)
  | [] => .ok []
  | b :: rest =>
    match f b with
    | .error e => .error e
    | .ok v =>
      match bootstrapSamples f rest with
      | .error e => .error e
      | .ok vs => .ok (v :: vs)

lemma bootstrapSamples_ok_length (f : ℕ → Except PyErr ℝ) :
    ∀ (l : List ℕ) (ds : List ℝ), bootstrapSamples f l = .ok ds → ds.length = l.length := by
  intro l
  induction l with
  | nil =>
    intro ds h
    simp only [bootstrapSamples] at h
    cases h
    rfl
  | cons b rest ih =>
    intro ds h
    simp only [bootstrapSamples] at h
    cases hf : f b with
    | error e => rw [hf] at h; cases h
    | ok v =>
      rw [hf] at h
      cases hr : bootstrapSamples f rest with
      | error e => rw [hr] at h; cases h
      | ok vs =>
        rw [hr] at h
        cases h
        simp [ih vs hr]

/-- The raw `2^layers`-entry outcome probability vector
`[counts.get(format(i, f'0{layers}b'), 0) / num_shots for i in range(2**layers)]`. -/
noncomputable def rawPVec (counts : Counts) (layers : ℕ) : List ℝ :=
  (List.range (2 ^ layers)).map
    (fun i => (countsGet counts (natToBits layers i) : ℝ) / (totalShots counts : ℝ))

/-- The resampled counts dictionary
`{format(i, f'0{layers}b'): count for i, count in enumerate(arr)}`. -/
def resampledDict (layers : ℕ) (arr : List ℕ) : Counts :=
  arr.enum.map (fun ic => (natToBits layers ic.1, ic.2))

/-- `bootstrap_distance(counts, layers, target_dist, n_boot=500)` from
`src/analysis.py`. `draws b shots pvec` stands for the value of the `b`-th
call `np.random.multinomial(shots, pvec)`. A zero shot total makes the
raw-vector division raise before any resampling; with no samples
(`n_boot = 0`) `np.percentile` raises. -/
noncomputable def bootstrap_distance (counts : Counts) (layers : ℕ) (target_dist : ProbDict)
    (draws : ℕ → ℕ → List ℝ → List ℕ) (n_boot : ℕ := 500) :
    Except PyErr (ℝ × ℝ × ℝ) :=
  let num_shots := totalShots counts
  if num_shots = 0 then .error .zeroDivision
  else
    let raw_p_vec := rawPVec counts layers
    if n_boot = 0 then .error .emptyPercentile
    else
      (bootstrapSamples
        (fun b =>
          (process_results (resampledDict layers (draws b num_shots raw_p_vec)) layers).map
            (fun resampled_dist => kl_divergence resampled_dist target_dist))
        (List.range n_boot)).map
        (fun distances =>
          (npMean distances, npPercentile distances 2.5, npPercentile distances 97.5))

/-- `bootstrap_ci(counts, m, shots, n_boot)` from
`src/quantum_simulation.py`: resample the full probability vector
`n_boot` times, recompute the weighted estimator on each resample, and
report the 2.5th and 97.5th percentiles of the estimates. The signature
declares no default for `n_boot`; with no samples `np.percentile` raises. -/
noncomputable def bootstrap_ci (counts : Counts) (m : ℕ) (shots : ℕ)
    (draws : ℕ → ℕ → List ℝ → List ℕ) (n_boot : ℕ) : Except PyErr (ℝ × ℝ) :=
  let probs := full_counts_probs counts m
  let pvec := (List.range (2 ^ m)).map (fun j => dictGet probs j)
  if n_boot = 0 then .error .emptyPercentile
  else
    let estimates := (List.range n_boot).map (fun b =>
      let resampled_counts := draws b shots pvec
      let resampled_probs := resampled_counts.enum.map
        (fun jc => (jc.1, (jc.2 : ℝ) / (shots : ℝ)))
      weighted_estimator_from_probs resampled_probs m)
    .ok (npPercentile estimates 2.5, npPercentile estimates 97.5)

lemma except_map_ok {α β : Type} (f : α → β) (x : Except PyErr α) (b : β)
    (h : x.map f = .ok b) : ∃ a, x = .ok a ∧ b = f a := by
  cases x with
  | error e => simp [Except.map] at h
  | ok a =>
    refine ⟨a, rfl, ?_⟩
    simpa [Except.map] using h.symm

lemma percentile_pair_le (ds : List ℝ) (hne : ds ≠ []) :
    npPercentile ds 2.5 ≤ npPercentile ds 97.5 :=
  npPercentile_mono ds hne (by norm_num) (by norm_num)

/-- C5 (amended): whenever either bootstrap routine returns, its two
percentile bounds are ordered, `lo ≤ hi`. The original claim's middle
inequality — mean or point estimate inside the interval for every random
draw — fails; see `bootstrap_ci_point_outside_interval`. -/
theorem bootstrap_bounds_ordered :
    (∀ (counts : Counts) (layers : ℕ) (target_dist : ProbDict)
       (draws : ℕ → ℕ → List ℝ → List ℕ) (n_boot : ℕ) (r : ℝ × ℝ × ℝ),
      bootstrap_distance counts layers target_dist draws n_boot = .ok r →
      r.2.1 ≤ r.2.2) ∧
    (∀ (counts : Counts) (m shots : ℕ)
       (draws : ℕ → ℕ → List ℝ → List ℕ) (n_boot : ℕ) (r : ℝ × ℝ),
      bootstrap_ci counts m shots draws n_boot = .ok r → r.1 ≤ r.2) := by
  constructor
  · intro counts layers target_dist draws n_boot r hok
    by_cases h0 : totalShots counts = 0
    · simp [bootstrap_distance, h0] at hok
    · by_cases hb : n_boot = 0
      · simp [bootstrap_distance, h0, hb] at hok
      · simp only [bootstrap_distance, if_neg h0, if_neg hb] at hok
        obtain ⟨ds, hds, hr⟩ := except_map_ok _ _ _ hok
        have hlen := bootstrapSamples_ok_length _ _ _ hds
        have hne : ds ≠ [] := by
          intro hnil
          rw [hnil] at hlen
          simp at hlen
          exact hb hlen.symm
        rw [hr]
        exact percentile_pair_le ds hne
  · intro counts m shots draws n_boot r hok
    by_cases hb : n_boot = 0
    · simp [bootstrap_ci, hb] at hok
    · simp only [bootstrap_ci, if_neg hb, Except.ok.injEq] at hok
      rw [← hok]
      apply percentile_pair_le
      intro hnil
      rw [List.map_eq_nil_iff] at hnil
      exact hb (by simpa using hnil)

/-- Closed instance of the `bootstrap_bounds_ordered` hypotheses: one
concrete successful run of each routine. -/
theorem bootstrap_bounds_ordered_witness :
    (∃ r, bootstrap_distance [([false], 1)] 1 [] (fun _ _ _ => [1, 0]) 1 = .ok r ∧
      r.2.1 ≤ r.2.2) ∧
    (∃ r, bootstrap_ci [([false], 1)] 1 1 (fun _ _ _ => [1, 0]) 1 = .ok r ∧
      r.1 ≤ r.2) := by
  constructor
  · obtain ⟨r, hr⟩ : ∃ r,
        bootstrap_distance [([false], 1)] 1 [] (fun _ _ _ => [1, 0]) 1 = .ok r :=
      ⟨_, rfl⟩
    exact ⟨r, hr, bootstrap_bounds_ordered.1 _ _ _ _ _ _ hr⟩
  · obtain ⟨r, hr⟩ : ∃ r,
        bootstrap_ci [([false], 1)] 1 1 (fun _ _ _ => [1, 0]) 1 = .ok r :=
      ⟨_, rfl⟩
    exact ⟨r, hr, bootstrap_bounds_ordered.2 _ _ _ _ _ _ hr⟩

lemma npPercentile_singleton (x : ℝ) (q : ℝ) : npPercentile [x] q = x := by
  unfold npPercentile sortedAt sortSamples
  simp

/-- C5 counterexample: with original counts `{'0': 1, '1': 1}` (`m = 1`,
`shots = 2`, `pvec = [1/2, 1/2]`) and the realizable multinomial draw
`[0, 2]` — probability `1/4` per iteration, so some seed produces it — the
single bootstrap estimate is `1` and the returned interval is `[1, 1]`,
strictly above the point estimate `1/2` computed from the original counts:
`lower ≤ point estimate` fails. -/
theorem bootstrap_ci_point_outside_interval :
    bootstrap_ci [([false], 1), ([true], 1)] 1 2 (fun _ _ _ => [0, 2]) 1 =
      .ok (1, 1) ∧
    weighted_estimator_from_probs
      (full_counts_probs [([false], 1), ([true], 1)] 1) 1 = 1 / 2 ∧
    ¬((1 : ℝ) ≤ 1 / 2) := by
  have hs2 : Real.sin (Real.pi * (2⁻¹ : ℝ)) = 1 := by
    rw [show Real.pi * (2⁻¹ : ℝ) = Real.pi / 2 by ring, Real.sin_pi_div_two]
  have hs2' : Real.sin (Real.pi * ((1 : ℝ) / 2)) = 1 := by
    rw [show Real.pi * ((1 : ℝ) / 2) = Real.pi / 2 by ring, Real.sin_pi_div_two]
  have hE : weighted_estimator_from_probs
      [(0, ((0 : ℕ) : ℝ) / ((2 : ℕ) : ℝ)), (1, ((2 : ℕ) : ℝ) / ((2 : ℕ) : ℝ))] 1 = 1 := by
    norm_num [weighted_estimator_from_probs, hs2, hs2']
  have hfull : full_counts_probs [([false], 1), ([true], 1)] 1 =
      [(0, ((1 : ℕ) : ℝ) / ((2 : ℕ) : ℝ)), (1, ((1 : ℕ) : ℝ) / ((2 : ℕ) : ℝ))] := by
    simp [full_counts_probs, totalShots, List.range_succ, dictSet, bitsToNat]
  refine ⟨?_, ?_, by norm_num⟩
  · have hstep : bootstrap_ci [([false], 1), ([true], 1)] 1 2 (fun _ _ _ => [0, 2]) 1 =
        .ok (npPercentile [weighted_estimator_from_probs
            [(0, ((0 : ℕ) : ℝ) / ((2 : ℕ) : ℝ)), (1, ((2 : ℕ) : ℝ) / ((2 : ℕ) : ℝ))] 1] 2.5,
          npPercentile [weighted_estimator_from_probs
            [(0, ((0 : ℕ) : ℝ) / ((2 : ℕ) : ℝ)), (1, ((2 : ℕ) : ℝ) / ((2 : ℕ) : ℝ))] 1] 97.5) :=
      rfl
    rw [hstep, hE, npPercentile_singleton, npPercentile_singleton]
  · rw [hfull]
    norm_num [weighted_estimator_from_probs, hs2, hs2']

/-- C6 counterexample: `bootstrap_distance` has no zero-shot guard — on a
counts dictionary with zero total shots the raw outcome vector construction
divides the integer counts by zero instead of returning a result. -/
theorem bootstrap_distance_zero_shots_raises :
    bootstrap_distance [([false], 0)] 1 [] (fun _ _ _ => [0, 0]) =
      .error .zeroDivision := rfl

/-- C6 (amended): the zero-shot guards of `process_results` and
`full_counts_probs` return all-zero distributions, but `bootstrap_distance`
has no such guard: a zero shot total makes its raw-vector division raise
rather than produce a well-defined result. -/
theorem zero_shot_guards :
    (∀ (counts : Counts) (num_bits : ℕ), totalShots counts = 0 →
      full_counts_probs counts num_bits =
        (List.range (2 ^ num_bits)).map (fun j => (j, (0 : ℝ)))) ∧
    (∀ (counts : Counts) (layers : ℕ) (target_dist : ProbDict)
       (draws : ℕ → ℕ → List ℝ → List ℕ) (n_boot : ℕ), totalShots counts = 0 →
      bootstrap_distance counts layers target_dist draws n_boot =
        .error .zeroDivision) := by
  constructor
  · intro counts num_bits h0
    simp [full_counts_probs, h0]
  · intro counts layers target_dist draws n_boot h0
    simp [bootstrap_distance, h0]

/-- Closed instance of the `zero_shot_guards` hypotheses. -/
theorem zero_shot_guards_witness :
    totalShots [([true, false], 0)] = 0 ∧
    full_counts_probs [([true, false], 0)] 2 =
      (List.range (2 ^ 2)).map (fun j => (j, (0 : ℝ))) ∧
    bootstrap_distance [([true, false], 0)] 2 [] (fun _ _ _ => []) 5 =
      .error .zeroDivision :=
  ⟨rfl, zero_shot_guards.1 _ 2 rfl, zero_shot_guards.2 _ 2 [] _ 5 rfl⟩

/-- The `n_boot: int = 500` default declared in the signature of
`bootstrap_distance` in `src/analysis.py`. -/
def bootstrap_distance_n_boot_default : Option ℕ := some 500

/-- The signature `bootstrap_ci(counts, m, shots, n_boot)` in
`src/quantum_simulation.py` declares no default for `n_boot`. -/
def bootstrap_ci_n_boot_default : Option ℕ := none

/-- The resample count `run_qae_simulation` passes explicitly to
`bootstrap_ci` at both of its call sites (`n_boot=200`). -/
def run_qae_n_boot : ℕ := 200

/-- C9 counterexample: `bootstrap_ci` declares no default resample count at
all; the 200 iterations come from the caller's explicit argument, so a call
that omits the count is a `TypeError`, not a 200-iteration run. -/
theorem bootstrap_ci_has_no_default :
    bootstrap_ci_n_boot_default = none ∧ bootstrap_ci_n_boot_default ≠ some 200 :=
  ⟨rfl, by simp [bootstrap_ci_n_boot_default]⟩

/-- C9 (amended): `bootstrap_distance` defaults to 500 resamples — a call
without `n_boot` elaborates to `n_boot = 500`, and a successful run collects
exactly `n_boot` bootstrap samples — while `bootstrap_ci` takes its
resample count as a required argument and receives 200 from
`run_qae_simulation`; the two counts are independent parameters. -/
theorem bootstrap_resample_defaults :
    bootstrap_distance_n_boot_default = some 500 ∧
    (∀ (counts : Counts) (layers : ℕ) (target_dist : ProbDict)
       (draws : ℕ → ℕ → List ℝ → List ℕ),
      bootstrap_distance counts layers target_dist draws =
        bootstrap_distance counts layers target_dist draws 500) ∧
    (∀ (f : ℕ → Except PyErr ℝ) (n : ℕ) (ds : List ℝ),
      bootstrapSamples f (List.range n) = .ok ds → ds.length = n) ∧
    bootstrap_ci_n_boot_default = none ∧
    run_qae_n_boot = 200 := by
  refine ⟨rfl, fun _ _ _ _ => rfl, ?_, rfl, rfl⟩
  intro f n ds h
  have hlen := bootstrapSamples_ok_length f (List.range n) ds h
  simpa using hlen

/-- Closed instance of the `bootstrap_resample_defaults` hypothesis. -/
theorem bootstrap_resample_defaults_witness :
    bootstrapSamples (fun _ => .ok 0) (List.range 2) = .ok [(0 : ℝ), 0] ∧
    ([(0 : ℝ), 0]).length = 2 :=
  ⟨rfl, bootstrap_resample_defaults.2.2.1 (fun _ => .ok 0) 2 [(0 : ℝ), 0] rfl⟩
